/-
  Verification of the loggen log replayer (src/main.rs).

  The development shallowly embeds the core of the program:
  the wrap-strategy enum and its string parser, the CLI validator
  is_positive_number, the parallelism resolution performed in main,
  the GenInput replay unit (read cursor, write handle, truncate,
  rotate, wrap, read, write), the worker loop generate, and the
  partition construction performed in run.

  Filesystems are modelled as association lists from paths to file
  contents, file contents as lists of lines (each line carries its
  trailing line terminator, exactly as BufRead::read_line returns it,
  and one written line is one flushed LineWriter write since every
  such line ends in a newline).  Fallible filesystem calls take
  explicit Bool flags that say whether the call succeeds, so that
  the error paths of the Rust code are visible as ordinary values.
-/
import Mathlib

set_option maxHeartbeats 1000000

/-- The wrap strategy enum of src/main.rs. -/
inductive WrapStrategy where
  | Truncate
  | Append
  | Rotate
deriving DecidableEq, Repr

/-- WrapStrategy::from_str: a match on the three known strings,
    falling back to the supplied default strategy on anything else. -/
def WrapStrategy.from_str (v : String) (default : WrapStrategy) : WrapStrategy :=
  if v = "truncate" then WrapStrategy.Truncate
  else if v = "append" then WrapStrategy.Append
  else if v = "rotate" then WrapStrategy.Rotate
  else default

/-- Model of Rust u64 FromStr parsing: an optional leading plus sign,
    then at least one ASCII digit, and the value must fit in 64 bits
    (overflow is a parse error).  Returns the parsed value. -/
def parseU64 (s : String) : Option Nat :=
  let ds := match s.data with
    | c :: rest => if c = '+' then rest else c :: rest
    | [] => []
  if ds = [] then none
  else if ds.all Char.isDigit then
    let v := ds.foldl (fun a c => a * 10 + (c.toNat - 48)) 0
    if v < 2 ^ 64 then some v else none
  else none

/-- is_positive_number of src/main.rs: Ok exactly when the argument
    parses as a u64 (note that this accepts the string 0). -/
def is_positive_number (v : String) : Except String Unit :=
  if (parseU64 v).isSome then Except.ok ()
  else Except.error (v ++ " is not a positive number")

/-- Model of clap value_of for an argument declared with default_value:
    it always yields a value, the user value when given, otherwise
    the declared default. -/
def clapValueOf (userArg : Option String) (defaultVal : String) : Option String :=
  some (userArg.getD defaultVal)

/-- The parallelism resolution of main: value_of with clap default "2",
    unwrap_or("0") (dead, since the default guarantees a value), parse
    as an unsigned integer (the validator guarantees this succeeds, a
    failure would panic and is modelled as none), then 0 is replaced by
    the detected processor count. -/
def resolveParallelism (userArg : Option String) (numCpus : Nat) : Option Nat :=
  match parseU64 ((clapValueOf userArg "2").getD "0") with
  | none => none
  | some p0 => some (if p0 = 0 then numCpus else p0)

/-- C9: WrapStrategy.from_str maps the three known strings to the
    corresponding strategies and is total: every other string yields
    the supplied default strategy. -/
theorem from_str_total (d : WrapStrategy) (v : String) :
    WrapStrategy.from_str "truncate" d = WrapStrategy.Truncate
    ∧ WrapStrategy.from_str "append" d = WrapStrategy.Append
    ∧ WrapStrategy.from_str "rotate" d = WrapStrategy.Rotate
    ∧ (v ≠ "truncate" → v ≠ "append" → v ≠ "rotate" →
        WrapStrategy.from_str v d = d) := by
  refine ⟨rfl, ?_, ?_, ?_⟩
  · show (if ("append" : String) = "truncate" then _ else _) = _
    rw [if_neg (by decide), if_pos rfl]
  · show (if ("rotate" : String) = "truncate" then _ else _) = _
    rw [if_neg (by decide), if_neg (by decide), if_pos rfl]
  · intro h1 h2 h3
    unfold WrapStrategy.from_str
    rw [if_neg h1, if_neg h2, if_neg h3]

/-- Witness for C9 at concrete inputs. -/
theorem from_str_total_witness :
    WrapStrategy.from_str "banana" WrapStrategy.Append = WrapStrategy.Append :=
  (from_str_total WrapStrategy.Append "banana").2.2.2
    (by decide) (by decide) (by decide)

/-- C10: is_positive_number returns Ok exactly when the argument parses
    as an unsigned 64-bit integer; in particular it accepts "0", so the
    interval and parallelism validators admit zero. -/
theorem is_positive_number_spec (v : String) :
    (is_positive_number v = Except.ok () ↔ (parseU64 v).isSome = true)
    ∧ is_positive_number "0" = Except.ok ()
    ∧ parseU64 "0" = some 0 := by
  refine ⟨?_, by rfl, by rfl⟩
  unfold is_positive_number
  by_cases h : (parseU64 v).isSome = true
  · simp [h]
  · simp [h]

/-- Witness for C10 at a concrete input. -/
theorem is_positive_number_spec_witness :
    is_positive_number "0" = Except.ok () :=
  (is_positive_number_spec "0").2.1

/-- C6 counterexample: with the parallelism argument unset, main uses the
    clap default "2", not the number of available processors (here 8). -/
theorem parallelism_default_cex :
    resolveParallelism none 8 = some 2 ∧ resolveParallelism none 8 ≠ some 8 := by
  constructor
  · rfl
  · intro h
    have : (2 : Nat) = 8 := by
      have h2 : resolveParallelism none 8 = some 2 := by rfl
      rw [h2] at h
      exact Option.some.inj h
    omega

/-- C6 amended: the parallelism count defaults to 2 when the argument is
    unset (the clap default value), and an explicit value of 0 triggers
    auto-detection of the processor count; any explicit nonzero value is
    used as given. -/
theorem parallelism_resolution (c : Nat) (s : String) (p : Nat) :
    resolveParallelism none c = some 2
    ∧ (parseU64 s = some 0 → resolveParallelism (some s) c = some c)
    ∧ (parseU64 s = some p → p ≠ 0 → resolveParallelism (some s) c = some p) := by
  refine ⟨rfl, ?_, ?_⟩
  · intro h
    unfold resolveParallelism clapValueOf
    simp only [Option.getD_some]
    rw [h]
    simp
  · intro h hp
    unfold resolveParallelism clapValueOf
    simp only [Option.getD_some]
    rw [h]
    simp [hp]

/-- Witness for C6 amended at concrete inputs. -/
theorem parallelism_resolution_witness :
    resolveParallelism (some "0") 8 = some 8
    ∧ resolveParallelism (some "3") 8 = some 3 :=
  ⟨(parallelism_resolution 8 "0" 0).2.1 (by rfl),
   (parallelism_resolution 8 "3" 3).2.2 (by rfl) (by decide)⟩

/-- File contents: the list of lines of the file, each line carrying its
    trailing line terminator (the last line of a file may lack one). -/
abbrev FileContent := List String

/-- An I/O error, as reported by a failing filesystem call. -/
inductive IoErr where
  | ioError
deriving DecidableEq, Repr

/-- A filesystem: an association list from paths to file contents. -/
abbrev Fs := List (String × FileContent)

/-- Look up the content of the file at a path, none when no such file. -/
def Fs.get (fs : Fs) (p : String) : Option FileContent :=
  (fs.find? (fun e => e.1 == p)).map (fun e => e.2)

/-- Content of the file at a path, or a default. -/
def Fs.getD (fs : Fs) (p : String) (d : FileContent) : FileContent :=
  (Fs.get fs p).getD d

/-- Create or overwrite the file at a path with the given content. -/
def Fs.set (fs : Fs) (p : String) (c : FileContent) : Fs :=
  match fs with
  | [] => [(p, c)]
  | e :: rest => if e.1 == p then (p, c) :: rest else e :: Fs.set rest p c

/-- Remove the file at a path. -/
def Fs.erase (fs : Fs) (p : String) : Fs :=
  match fs with
  | [] => []
  | e :: rest => if e.1 == p then Fs.erase rest p else e :: Fs.erase rest p

/-- std::fs::rename: fails when the source does not exist; otherwise moves
    the content, silently replacing anything at the destination.  Renaming
    a path to itself succeeds and changes nothing (POSIX). -/
def Fs.rename (fs : Fs) (src dst : String) : Option Fs :=
  match Fs.get fs src with
  | none => none
  | some c => some (Fs.set (Fs.erase fs src) dst c)

/-- OpenOptions write+create+append: creates an empty file when the path
    is absent, keeps existing content otherwise. -/
def Fs.openAppendCreate (fs : Fs) (p : String) : Fs :=
  match Fs.get fs p with
  | some _ => fs
  | none => Fs.set fs p []

/-- Index of the last occurrence of a character in a character list. -/
def lastIdxOf (target : Char) : List Char → Option Nat
  | [] => none
  | c :: rest =>
    match lastIdxOf target rest with
    | some i => some (i + 1)
    | none => if c == target then some 0 else none

/-- Rust Path::file_stem on a plain file name: everything before the last
    dot; the whole name when there is no dot, or when the only dot is the
    leading character (hidden files). -/
def rustFileStem (name : String) : String :=
  match name.data with
  | [] => ""
  | c :: rest =>
    match lastIdxOf '.' rest with
    | some i => String.mk (c :: rest.take i)
    | none => name

/-- Rust Path::with_extension with a nonempty extension, for a path whose
    final component is a nonempty file name: the directory part (up to and
    including the last slash) is kept, the file name is replaced by its
    stem followed by a dot and the new extension. -/
def withExtension (path : String) (ext : String) : String :=
  match lastIdxOf '/' path.data with
  | some i =>
    String.mk (path.data.take (i + 1)) ++ rustFileStem (String.mk (path.data.drop (i + 1))) ++ "." ++ ext
  | none => rustFileStem path ++ "." ++ ext

/-- The replay unit of src/main.rs.  The two handles of the Rust struct
    are modelled by their observable state: the reader by the (immutable)
    content of the opened input file together with the read cursor as a
    line index, the writer by the path of the file its descriptor
    currently refers to (after a rename of the output file the open
    descriptor follows the file to its new path). -/
structure GenInput where
  path_in : String
  path_out : String
  input : FileContent
  cursor : Nat
  writerTarget : String
deriving DecidableEq, Repr

/-- GenInput::truncate: reopen the output path with create+truncate
    semantics, discarding prior content, and replace the write handle.
    The openOk flag tells whether the open call succeeds; on failure
    nothing is mutated and the error is returned. -/
def GenInput.truncate (u : GenInput) (fs : Fs) (openOk : Bool) :
    Option IoErr × GenInput × Fs :=
  if openOk then
    (none, { u with writerTarget := u.path_out }, Fs.set fs u.path_out [])
  else
    (some IoErr.ioError, u, fs)

/-- GenInput::rotate: rename the output file to with_extension("rotated"),
    then reopen the output path in append+create mode and replace the
    write handle.  renameOk and openOk tell whether the two filesystem
    calls succeed; on a rename failure nothing is mutated, on an open
    failure the rename has already happened and the old write handle now
    follows the renamed file. -/
def GenInput.rotate (u : GenInput) (fs : Fs) (renameOk openOk : Bool) :
    Option IoErr × GenInput × Fs :=
  if renameOk then
    match Fs.rename fs u.path_out (withExtension u.path_out "rotated") with
    | none => (some IoErr.ioError, u, fs)
    | some fs2 =>
      if openOk then
        (none, { u with writerTarget := u.path_out }, Fs.openAppendCreate fs2 u.path_out)
      else
        (some IoErr.ioError, { u with writerTarget := withExtension u.path_out "rotated" }, fs2)
  else
    (some IoErr.ioError, u, fs)

/-- GenInput::wrap: apply the strategy transition, then seek the reader
    back to offset 0.  The question-mark operator in the Rust code makes
    a strategy failure return before the seek, so the cursor is reset
    only when the strategy transition succeeded. -/
def GenInput.wrap (u : GenInput) (fs : Fs) (strat : WrapStrategy)
    (renameOk openOk : Bool) : Option IoErr × GenInput × Fs :=
  match (match strat with
    | WrapStrategy.Truncate => u.truncate fs openOk
    | WrapStrategy.Append => (none, u, fs)
    | WrapStrategy.Rotate => u.rotate fs renameOk openOk) with
  | (some e, u2, fs2) => (some e, u2, fs2)
  | (none, u2, fs2) => (none, { u2 with cursor := 0 }, fs2)

/-- GenInput::read: one read_line call.  Returns Ok(Some(line)) with the
    line at the cursor (terminator included) advancing the cursor, Ok(None)
    when zero bytes were read (cursor at or past end of file), and Err on
    an I/O failure (readErr flag), leaving the unit untouched. -/
def GenInput.read (u : GenInput) (readErr : Bool) :
    Except IoErr (Option String) × GenInput :=
  if readErr then (Except.error IoErr.ioError, u)
  else
    match u.input.get? u.cursor with
    | some line => (Except.ok (some line), { u with cursor := u.cursor + 1 })
    | none => (Except.ok none, u)

/-- GenInput::write: append the exact line to the file the write handle
    refers to. -/
def GenInput.write (u : GenInput) (fs : Fs) (line : String) : Fs :=
  Fs.set fs u.writerTarget (Fs.getD fs u.writerTarget [] ++ [line])


theorem Fs.get_cons (e : String × FileContent) (rest : Fs) (q : String) :
    Fs.get (e :: rest) q = if e.1 == q then some e.2 else Fs.get rest q := by
  simp only [Fs.get, List.find?]
  cases h : (e.1 == q) <;> simp

theorem Fs.get_set_self (fs : Fs) (p : String) (c : FileContent) :
    Fs.get (Fs.set fs p c) p = some c := by
  induction fs with
  | nil => simp [Fs.set, Fs.get_cons]
  | cons e rest ih =>
    simp only [Fs.set]
    cases h : (e.1 == p) with
    | true => simp [Fs.get_cons]
    | false => simpa [Fs.get_cons, h] using ih

theorem Fs.get_set_ne (fs : Fs) (p q : String) (c : FileContent) (h : q ≠ p) :
    Fs.get (Fs.set fs p c) q = Fs.get fs q := by
  have hpq : (p == q) = false := by simpa using fun e => h e.symm
  induction fs with
  | nil => simp [Fs.set, Fs.get_cons, hpq, Fs.get]
  | cons e rest ih =>
    simp only [Fs.set]
    cases he : (e.1 == p) with
    | true =>
      have he1 : e.1 = p := by simpa using he
      have heq : (e.1 == q) = false := by simpa [he1] using fun x => h x.symm
      simp [Fs.get_cons, hpq, heq]
    | false =>
      rw [if_neg (by simp), Fs.get_cons, Fs.get_cons]
      cases hq : (e.1 == q) <;> simp [ih]

theorem Fs.get_erase_self (fs : Fs) (p : String) :
    Fs.get (Fs.erase fs p) p = none := by
  induction fs with
  | nil => rfl
  | cons e rest ih =>
    simp only [Fs.erase]
    cases he : (e.1 == p) with
    | true => simpa using ih
    | false => simpa [Fs.get_cons, he] using ih

theorem Fs.get_erase_ne (fs : Fs) (p q : String) (h : q ≠ p) :
    Fs.get (Fs.erase fs p) q = Fs.get fs q := by
  induction fs with
  | nil => rfl
  | cons e rest ih =>
    simp only [Fs.erase]
    cases he : (e.1 == p) with
    | true =>
      have he1 : e.1 = p := by simpa using he
      have heq : (e.1 == q) = false := by simpa [he1] using fun x => h x.symm
      simp [Fs.get_cons, heq, ih]
    | false =>
      rw [Fs.get_cons]
      cases hq : (e.1 == q) <;> simp [Fs.get_cons, hq, ih]

/-- C1 counterexample: a Truncate wrap whose reopen fails reports the
    error but leaves the read cursor at 1 — it is not reset to 0 as the
    claim states, because the question-mark operator returns before the
    seek. -/
theorem wrap_error_cex :
    (GenInput.wrap ⟨"in.txt", "out.txt", ["a\n"], 1, "out.txt"⟩
      [("out.txt", ["a\n"])] WrapStrategy.Truncate true false).1.isSome = true
    ∧ (GenInput.wrap ⟨"in.txt", "out.txt", ["a\n"], 1, "out.txt"⟩
      [("out.txt", ["a\n"])] WrapStrategy.Truncate true false).2.1.cursor = 1
    ∧ ¬ (GenInput.wrap ⟨"in.txt", "out.txt", ["a\n"], 1, "out.txt"⟩
      [("out.txt", ["a\n"])] WrapStrategy.Truncate true false).2.1.cursor = 0 := by
  refine ⟨rfl, rfl, by decide⟩

/-- C1 amended: when the rename/open of a Truncate or Rotate wrap fails,
    the error is reported and the read cursor is left unchanged (the seek
    to offset 0 is skipped by the early return); the cursor is reset to 0
    exactly when the strategy transition succeeds. -/
theorem wrap_cursor_policy (u : GenInput) (fs : Fs) (strat : WrapStrategy)
    (r o : Bool) :
    ((u.wrap fs strat r o).1.isSome = true →
      (u.wrap fs strat r o).2.1.cursor = u.cursor)
    ∧ ((u.wrap fs strat r o).1 = none → (u.wrap fs strat r o).2.1.cursor = 0) := by
  cases strat with
  | Append =>
    exact ⟨fun h => by simp [GenInput.wrap] at h, fun _ => rfl⟩
  | Truncate =>
    cases o with
    | true =>
      exact ⟨fun h => by simp [GenInput.wrap, GenInput.truncate] at h, fun _ => rfl⟩
    | false =>
      exact ⟨fun _ => rfl, fun h => by simp [GenInput.wrap, GenInput.truncate] at h⟩
  | Rotate =>
    cases r with
    | false =>
      exact ⟨fun _ => rfl, fun h => by simp [GenInput.wrap, GenInput.rotate] at h⟩
    | true =>
      cases hrn : Fs.rename fs u.path_out (withExtension u.path_out "rotated") with
      | none =>
        constructor
        · intro _
          simp [GenInput.wrap, GenInput.rotate, hrn]
        · intro h
          simp [GenInput.wrap, GenInput.rotate, hrn] at h
      | some fs2 =>
        cases o with
        | true =>
          constructor
          · intro h
            simp [GenInput.wrap, GenInput.rotate, hrn] at h
          · intro _
            simp [GenInput.wrap, GenInput.rotate, hrn]
        | false =>
          constructor
          · intro _
            simp [GenInput.wrap, GenInput.rotate, hrn]
          · intro h
            simp [GenInput.wrap, GenInput.rotate, hrn] at h

/-- Witness for C1 amended: a failing wrap keeps cursor 1, a succeeding
    wrap resets it to 0. -/
theorem wrap_cursor_policy_witness :
    (GenInput.wrap ⟨"in.txt", "out.txt", ["a\n"], 1, "out.txt"⟩
      [("out.txt", ["a\n"])] WrapStrategy.Truncate true false).2.1.cursor = 1
    ∧ (GenInput.wrap ⟨"in.txt", "out.txt", ["a\n"], 1, "out.txt"⟩
      [("out.txt", ["a\n"])] WrapStrategy.Truncate true true).2.1.cursor = 0 :=
  ⟨(wrap_cursor_policy _ _ _ _ _).1 (by rfl),
   (wrap_cursor_policy _ _ _ _ _).2 (by rfl)⟩

/-- C3 counterexample: when the output path already carries the extension
    rotated, with_extension maps it to itself, so the rename is a no-op
    and the reopened output file keeps its old content — no fresh empty
    output file appears at the original path. -/
theorem rotate_self_named_cex :
    withExtension "log.rotated" "rotated" = "log.rotated"
    ∧ Fs.get (GenInput.wrap ⟨"in.txt", "log.rotated", ["x\n"], 1, "log.rotated"⟩
        [("log.rotated", ["x\n"])] WrapStrategy.Rotate true true).2.2 "log.rotated"
      = some ["x\n"]
    ∧ ¬ Fs.get (GenInput.wrap ⟨"in.txt", "log.rotated", ["x\n"], 1, "log.rotated"⟩
        [("log.rotated", ["x\n"])] WrapStrategy.Rotate true true).2.2 "log.rotated"
      = some [] := by
  refine ⟨rfl, rfl, by decide⟩

/-- C3 amended: provided the rotated name differs from the output path
    itself (the output file name does not already have the extension
    rotated), a successful Rotate wrap renames the output file to
    with_extension("rotated") — overwriting anything already there —
    opens a fresh empty output file at the original path in append mode,
    points the write handle back at the output path, and resets the read
    cursor to 0. -/
theorem rotate_wrap_spec (u : GenInput) (fs : Fs) (content : FileContent)
    (hsrc : Fs.get fs u.path_out = some content)
    (hne : withExtension u.path_out "rotated" ≠ u.path_out) :
    (u.wrap fs WrapStrategy.Rotate true true).1 = none
    ∧ (u.wrap fs WrapStrategy.Rotate true true).2.1.cursor = 0
    ∧ (u.wrap fs WrapStrategy.Rotate true true).2.1.writerTarget = u.path_out
    ∧ Fs.get (u.wrap fs WrapStrategy.Rotate true true).2.2
        (withExtension u.path_out "rotated") = some content
    ∧ Fs.get (u.wrap fs WrapStrategy.Rotate true true).2.2 u.path_out = some [] := by
  have hrn : Fs.rename fs u.path_out (withExtension u.path_out "rotated")
      = some (Fs.set (Fs.erase fs u.path_out)
          (withExtension u.path_out "rotated") content) := by
    unfold Fs.rename
    rw [hsrc]
  have hget2 : Fs.get (Fs.set (Fs.erase fs u.path_out)
      (withExtension u.path_out "rotated") content) u.path_out = none := by
    rw [Fs.get_set_ne _ _ _ _ (fun h => hne h.symm), Fs.get_erase_self]
  have hopen : Fs.openAppendCreate (Fs.set (Fs.erase fs u.path_out)
        (withExtension u.path_out "rotated") content) u.path_out
      = Fs.set (Fs.set (Fs.erase fs u.path_out)
          (withExtension u.path_out "rotated") content) u.path_out [] := by
    unfold Fs.openAppendCreate
    rw [hget2]
  have hwrap : u.wrap fs WrapStrategy.Rotate true true
      = (none, { u with writerTarget := u.path_out, cursor := 0 },
         Fs.set (Fs.set (Fs.erase fs u.path_out)
           (withExtension u.path_out "rotated") content) u.path_out []) := by
    unfold GenInput.wrap GenInput.rotate
    rw [hrn]
    simp [hopen]
  rw [hwrap]
  refine ⟨rfl, rfl, rfl, ?_, ?_⟩
  · rw [Fs.get_set_ne _ _ _ _ hne, Fs.get_set_self]
  · rw [Fs.get_set_self]

/-- Witness for C3 amended at a concrete unit: a prior rotated file is
    overwritten, the output file afterwards is empty. -/
theorem rotate_wrap_spec_witness :
    Fs.get (GenInput.wrap ⟨"in.txt", "out.log", ["a\n"], 1, "out.log"⟩
      [("out.log", ["a\n"]), ("out.rotated", ["old\n"])]
      WrapStrategy.Rotate true true).2.2 "out.rotated" = some ["a\n"]
    ∧ Fs.get (GenInput.wrap ⟨"in.txt", "out.log", ["a\n"], 1, "out.log"⟩
      [("out.log", ["a\n"]), ("out.rotated", ["old\n"])]
      WrapStrategy.Rotate true true).2.2 "out.log" = some [] :=
  ⟨(rotate_wrap_spec ⟨"in.txt", "out.log", ["a\n"], 1, "out.log"⟩
      [("out.log", ["a\n"]), ("out.rotated", ["old\n"])] ["a\n"]
      (by rfl) (by decide)).2.2.2.1,
   (rotate_wrap_spec ⟨"in.txt", "out.log", ["a\n"], 1, "out.log"⟩
      [("out.log", ["a\n"]), ("out.rotated", ["old\n"])] ["a\n"]
      (by rfl) (by decide)).2.2.2.2⟩

/-- Success/failure flags for the fallible filesystem calls one turn of
    the worker loop can make. -/
structure TurnFlags where
  readErr : Bool
  renameOk : Bool
  openOk : Bool
deriving DecidableEq, Repr

/-- Flags for a turn in which every filesystem call succeeds. -/
def okFlags : TurnFlags := ⟨false, true, true⟩

/-- One turn of the generate loop on one unit: read; on a line, write it;
    on end of input, wrap (a wrap error is only reported); on a read
    error, only report.  Mirrors the match statement in generate. -/
def unitTurn (strat : WrapStrategy) (fl : TurnFlags) (s : GenInput × Fs) :
    GenInput × Fs :=
  match s.1.read fl.readErr with
  | (Except.ok (some line), u2) => (u2, u2.write s.2 line)
  | (Except.ok none, u2) =>
    ((u2.wrap s.2 strat fl.renameOk fl.openOk).2.1,
     (u2.wrap s.2 strat fl.renameOk fl.openOk).2.2)
  | (Except.error _, u2) => (u2, s.2)

/-- n turns of the generate loop on one unit, earliest turn first. -/
def turnIter (strat : WrapStrategy) (fl : TurnFlags) :
    Nat → GenInput × Fs → GenInput × Fs
  | 0, s => s
  | Nat.succ n, s => turnIter strat fl n (unitTurn strat fl s)

/-- State of one worker thread: its assigned units (each with the slice
    of the filesystem it owns) and the number of turns taken so far.
    The generate loop is an infinite loop over the unit vector, so the
    turn with index pos lands on unit pos mod length. -/
structure Worker where
  units : List (GenInput × Fs)
  pos : Nat

/-- Placeholder unit (never reached for in-range indices). -/
def defaultUnit : GenInput × Fs := (⟨"", "", [], 0, ""⟩, [])

/-- A turn event observable from outside: which unit took the turn and
    how long the worker then sleeps (the sleep happens after every turn,
    whatever its outcome). -/
structure TurnEvent where
  unitIdx : Nat
  sleepMs : Nat
deriving DecidableEq, Repr

/-- One step of the generate loop of src/main.rs: process the scheduled
    unit, then sleep for the configured interval.  The oracle supplies
    the filesystem-failure flags of each turn. -/
def workerStep (strat : WrapStrategy) (interval : Nat)
    (oracle : Nat → TurnFlags) (w : Worker) : Worker × TurnEvent :=
  (⟨w.units.set (w.pos % w.units.length)
      (unitTurn strat (oracle w.pos)
        (w.units.getD (w.pos % w.units.length) defaultUnit)),
    w.pos + 1⟩,
   ⟨w.pos % w.units.length, interval⟩)

/-- n steps of the generate loop, returning the final worker state and
    the chronological list of turn events. -/
def workerRun (strat : WrapStrategy) (interval : Nat)
    (oracle : Nat → TurnFlags) (w : Worker) : Nat → Worker × List TurnEvent
  | 0 => (w, [])
  | Nat.succ n =>
    ((workerRun strat interval oracle
        (workerStep strat interval oracle w).1 n).1,
     (workerStep strat interval oracle w).2 ::
       (workerRun strat interval oracle
         (workerStep strat interval oracle w).1 n).2)

/-- The initial replay unit built by GenInput::new for an input file with
    the given content, paired with its slice of the filesystem: reader at
    offset 0, output file opened append+create (here: fresh and empty). -/
def initUnit (path_in path_out : String) (input : FileContent) :
    GenInput × Fs :=
  (⟨path_in, path_out, input, 0, path_out⟩, [(path_out, [])])

/-- C7: GenInput::read returns the one line at the current read position
    (terminator included, the stored lines being exactly what read_line
    yields) and advances the cursor; it returns Ok(None) — EndOfInput —
    exactly when zero bytes were read, i.e. the cursor is at or past the
    end of the input; an injected I/O failure yields Err, leaves the unit
    untouched, and the generate loop continues with the unit unchanged. -/
theorem read_next_line_spec (u : GenInput) (strat : WrapStrategy)
    (fl : TurnFlags) (fs : Fs) :
    (u.read false).1 = Except.ok (u.input.get? u.cursor)
    ∧ (u.cursor < u.input.length → (u.read false).2.cursor = u.cursor + 1)
    ∧ ((u.read false).1 = Except.ok none ↔ u.input.length ≤ u.cursor)
    ∧ (u.read true).1 = Except.error IoErr.ioError
    ∧ (u.read true).2 = u
    ∧ (fl.readErr = true → unitTurn strat fl (u, fs) = (u, fs)) := by
  refine ⟨?_, ?_, ?_, rfl, rfl, ?_⟩
  · unfold GenInput.read
    cases hc : u.input.get? u.cursor <;> simp [hc]
  · intro h
    unfold GenInput.read
    rw [List.get?_eq_get h]
    simp
  · unfold GenInput.read
    cases hc : u.input.get? u.cursor with
    | none =>
      simp only [Bool.false_eq_true, if_false]
      constructor
      · intro _
        exact List.get?_eq_none.mp hc
      · intro _
        trivial
    | some line =>
      simp only [Bool.false_eq_true, if_false]
      constructor
      · intro h
        exact absurd (Except.ok.inj h) (by simp)
      · intro h
        rw [List.get?_eq_none.mpr h] at hc
        exact Option.noConfusion hc
  · intro h
    unfold unitTurn
    rw [h]
    rfl

/-- Witness for C7 at a concrete unit. -/
theorem read_next_line_spec_witness :
    (GenInput.read ⟨"in.txt", "out.txt", ["a\n", "b\n"], 0, "out.txt"⟩ false).2.cursor = 1
    ∧ ((GenInput.read ⟨"in.txt", "out.txt", ["a\n", "b\n"], 2, "out.txt"⟩ false).1
        = Except.ok none) :=
  ⟨(read_next_line_spec ⟨"in.txt", "out.txt", ["a\n", "b\n"], 0, "out.txt"⟩
      WrapStrategy.Append okFlags []).2.1 (by decide),
   (read_next_line_spec ⟨"in.txt", "out.txt", ["a\n", "b\n"], 2, "out.txt"⟩
      WrapStrategy.Append okFlags []).2.2.1.mpr (by decide)⟩

theorem turnIter_add (strat : WrapStrategy) (fl : TurnFlags) (a b : Nat)
    (s : GenInput × Fs) :
    turnIter strat fl (a + b) s = turnIter strat fl b (turnIter strat fl a s) := by
  induction a generalizing s with
  | zero => rw [Nat.zero_add]; rfl
  | succ n ih =>
    have h : n + 1 + b = (n + b) + 1 := by omega
    rw [h]
    show turnIter strat fl (n + b) (unitTurn strat fl s) = _
    rw [ih]
    rfl

theorem workerRun_single_units (strat : WrapStrategy) (interval : Nat)
    (fl : TurnFlags) (n : Nat) :
    ∀ (s : GenInput × Fs) (p : Nat),
      (workerRun strat interval (fun _ => fl) ⟨[s], p⟩ n).1.units
        = [turnIter strat fl n s] := by
  induction n with
  | zero => intro s p; rfl
  | succ n ih =>
    intro s p
    have hstep : (workerStep strat interval (fun _ => fl) ⟨[s], p⟩).1
        = ⟨[unitTurn strat fl s], p + 1⟩ := by
      unfold workerStep
      simp [Nat.mod_one]
    show (workerRun strat interval (fun _ => fl)
        (workerStep strat interval (fun _ => fl) ⟨[s], p⟩).1 n).1.units = _
    rw [hstep]
    exact ih (unitTurn strat fl s) (p + 1)

theorem Fs.getD_single (p : String) (c d : FileContent) :
    Fs.getD [(p, c)] p d = c := by
  simp [Fs.getD, Fs.get, List.find?]

theorem append_emit_phase (pin pout : String) :
    ∀ (suffix pre o : FileContent),
      turnIter WrapStrategy.Append okFlags suffix.length
        (⟨pin, pout, pre ++ suffix, pre.length, pout⟩, [(pout, o)])
      = (⟨pin, pout, pre ++ suffix, (pre ++ suffix).length, pout⟩,
          [(pout, o ++ suffix)]) := by
  intro suffix
  induction suffix with
  | nil => intro pre o; simp [turnIter]
  | cons l rest ih =>
    intro pre o
    have hget : (pre ++ l :: rest).get? pre.length = some l := by
      rw [List.get?_append_right (le_refl pre.length)]
      simp
    have hstep : unitTurn WrapStrategy.Append okFlags
        (⟨pin, pout, pre ++ l :: rest, pre.length, pout⟩, [(pout, o)])
        = (⟨pin, pout, pre ++ l :: rest, pre.length + 1, pout⟩,
           [(pout, o ++ [l])]) := by
      have hflag : okFlags.readErr = false := rfl
      unfold unitTurn GenInput.read
      rw [hflag]
      simp only [Bool.false_eq_true, if_false, hget]
      simp [GenInput.write, Fs.getD, Fs.get, Fs.set, List.find?]
    show turnIter WrapStrategy.Append okFlags rest.length
        (unitTurn WrapStrategy.Append okFlags
          (⟨pin, pout, pre ++ l :: rest, pre.length, pout⟩, [(pout, o)])) = _
    rw [hstep]
    have hrw : pre ++ l :: rest = (pre ++ [l]) ++ rest := by simp
    have hcur : pre.length + 1 = (pre ++ [l]).length := by simp
    rw [hrw, hcur, ih (pre ++ [l]) (o ++ [l])]
    simp

theorem append_wrap_phase (pin pout : String) (input o : FileContent) :
    unitTurn WrapStrategy.Append okFlags
      (⟨pin, pout, input, input.length, pout⟩, [(pout, o)])
    = (⟨pin, pout, input, 0, pout⟩, [(pout, o)]) := by
  have hflag : okFlags.readErr = false := rfl
  unfold unitTurn GenInput.read
  rw [hflag, List.get?_eq_none.mpr (le_refl _)]
  simp [GenInput.wrap]

/-- C2 counterexample: for the single-line input file "hello\n" under
    Append, after 3 worker turns the output holds two copies of the line,
    not three (the second turn is the wrap and emits nothing), and after
    2K = 2 turns it holds one copy, not two. -/
theorem append_three_turns_cex :
    Fs.getD ((workerRun WrapStrategy.Append 250 (fun _ => okFlags)
        ⟨[initUnit "in.txt" "out.txt" ["hello\n"]], 0⟩ 3).1.units.getD 0
        defaultUnit).2 "out.txt" []
      ≠ ["hello\n", "hello\n", "hello\n"]
    ∧ Fs.getD ((workerRun WrapStrategy.Append 250 (fun _ => okFlags)
        ⟨[initUnit "in.txt" "out.txt" ["hello\n"]], 0⟩ 2).1.units.getD 0
        defaultUnit).2 "out.txt" []
      ≠ ["hello\n", "hello\n"] := by
  constructor <;> decide

/-- C2 amended: for an input file with K lines under Append, after
    exactly K turns on the unit the output equals the input exactly once;
    the second copy is complete only after 2K+1 turns, because the turn
    that observes end-of-input wraps and emits nothing.  In particular,
    for the single-line input "hello\n", after 3 turns the output is
    "hello\nhello\n", and after 5 turns "hello\nhello\nhello\n". -/
theorem append_turns_output :
    (∀ (input : FileContent) (pin pout : String) (interval : Nat),
      Fs.getD ((workerRun WrapStrategy.Append interval (fun _ => okFlags)
          ⟨[initUnit pin pout input], 0⟩ input.length).1.units.getD 0
          defaultUnit).2 pout []
        = input
      ∧ Fs.getD ((workerRun WrapStrategy.Append interval (fun _ => okFlags)
          ⟨[initUnit pin pout input], 0⟩ (2 * input.length + 1)).1.units.getD 0
          defaultUnit).2 pout []
        = input ++ input)
    ∧ Fs.getD ((workerRun WrapStrategy.Append 250 (fun _ => okFlags)
        ⟨[initUnit "in.txt" "out.txt" ["hello\n"]], 0⟩ 3).1.units.getD 0
        defaultUnit).2 "out.txt" []
      = ["hello\n", "hello\n"]
    ∧ Fs.getD ((workerRun WrapStrategy.Append 250 (fun _ => okFlags)
        ⟨[initUnit "in.txt" "out.txt" ["hello\n"]], 0⟩ 5).1.units.getD 0
        defaultUnit).2 "out.txt" []
      = ["hello\n", "hello\n", "hello\n"] := by
  refine ⟨?_, by decide, by decide⟩
  intro input pin pout interval
  have e1 : turnIter WrapStrategy.Append okFlags input.length
      (initUnit pin pout input)
      = (⟨pin, pout, input, input.length, pout⟩, [(pout, input)]) := by
    have h := append_emit_phase pin pout input [] []
    simpa [initUnit] using h
  constructor
  · rw [workerRun_single_units WrapStrategy.Append interval okFlags
      input.length (initUnit pin pout input) 0]
    simp only [List.getD_cons_zero]
    rw [e1, Fs.getD_single]
  · rw [workerRun_single_units WrapStrategy.Append interval okFlags
      (2 * input.length + 1) (initUnit pin pout input) 0]
    simp only [List.getD_cons_zero]
    have hsplit : 2 * input.length + 1 = input.length + (1 + input.length) := by
      omega
    rw [hsplit, turnIter_add, e1, turnIter_add]
    have e3 : turnIter WrapStrategy.Append okFlags 1
        (⟨pin, pout, input, input.length, pout⟩, [(pout, input)])
        = (⟨pin, pout, input, 0, pout⟩, [(pout, input)]) :=
      append_wrap_phase pin pout input input
    rw [e3]
    have e4 := append_emit_phase pin pout input [] input
    simp only [List.nil_append, List.length_nil] at e4
    rw [e4, Fs.getD_single]

theorem workerRun_events_length (strat : WrapStrategy) (interval : Nat)
    (oracle : Nat → TurnFlags) :
    ∀ (n : Nat) (w : Worker),
      (workerRun strat interval oracle w n).2.length = n := by
  intro n
  induction n with
  | zero => intro w; rfl
  | succ n ih =>
    intro w
    show ((workerStep strat interval oracle w).2
        :: (workerRun strat interval oracle
            (workerStep strat interval oracle w).1 n).2).length = n + 1
    rw [List.length_cons, ih]

theorem workerRun_events_get (strat : WrapStrategy) (interval : Nat)
    (oracle : Nat → TurnFlags) :
    ∀ (n : Nat) (w : Worker) (t : Nat), t < n →
      (workerRun strat interval oracle w n).2.get? t
        = some ⟨(w.pos + t) % w.units.length, interval⟩ := by
  intro n
  induction n with
  | zero => intro w t ht; exact absurd ht (Nat.not_lt_zero t)
  | succ n ih =>
    intro w t ht
    cases t with
    | zero => rfl
    | succ t =>
      show ((workerStep strat interval oracle w).2
          :: (workerRun strat interval oracle
              (workerStep strat interval oracle w).1 n).2).get? (t + 1)
        = some ⟨(w.pos + (t + 1)) % w.units.length, interval⟩
      rw [List.get?_cons_succ]
      have h := ih (workerStep strat interval oracle w).1 t (by omega)
      have hlen : (workerStep strat interval oracle w).1.units.length
          = w.units.length := List.length_set _ _ _
      rw [hlen] at h
      rw [h]
      have harith : (workerStep strat interval oracle w).1.pos + t
          = w.pos + (t + 1) := by
        show w.pos + 1 + t = w.pos + (t + 1)
        omega
      rw [harith]

/-- C5: within one worker the generate loop is strict round-robin: the
    t-th turn lands on unit t mod m (m the number of assigned units), the
    configured interval is slept after every turn whatever its outcome
    (the oracle injecting arbitrary per-turn read/rename/open failures),
    the same unit takes two turns at least m turns apart, and in every
    window of m consecutive turns every unit takes exactly its one turn. -/
theorem generate_round_robin (strat : WrapStrategy) (interval : Nat)
    (oracle : Nat → TurnFlags) (units : List (GenInput × Fs)) (n : Nat)
    (hm : 0 < units.length) :
    (workerRun strat interval oracle ⟨units, 0⟩ n).2.length = n
    ∧ (∀ t, t < n → (workerRun strat interval oracle ⟨units, 0⟩ n).2.get? t
        = some ⟨t % units.length, interval⟩)
    ∧ (∀ t s e1 e2, t < s → s < n →
        (workerRun strat interval oracle ⟨units, 0⟩ n).2.get? t = some e1 →
        (workerRun strat interval oracle ⟨units, 0⟩ n).2.get? s = some e2 →
        e1.unitIdx = e2.unitIdx → t + units.length ≤ s)
    ∧ (∀ t j, j < units.length → t + units.length ≤ n →
        ∃ s e, t ≤ s ∧ s < t + units.length
          ∧ (workerRun strat interval oracle ⟨units, 0⟩ n).2.get? s = some e
          ∧ e.unitIdx = j) := by
  have hget : ∀ t, t < n →
      (workerRun strat interval oracle ⟨units, 0⟩ n).2.get? t
        = some ⟨t % units.length, interval⟩ := by
    intro t ht
    have h := workerRun_events_get strat interval oracle n ⟨units, 0⟩ t ht
    simpa using h
  refine ⟨workerRun_events_length strat interval oracle n ⟨units, 0⟩,
    hget, ?_, ?_⟩
  · intro t s e1 e2 hts hsn h1 h2 hidx
    rw [hget t (by omega)] at h1
    rw [hget s hsn] at h2
    have he1 : e1 = ⟨t % units.length, interval⟩ := (Option.some.inj h1).symm
    have he2 : e2 = ⟨s % units.length, interval⟩ := (Option.some.inj h2).symm
    have hmod : t % units.length = s % units.length := by
      have := hidx
      rw [he1, he2] at this
      exact this
    have hdvd : units.length ∣ s - t :=
      (Nat.modEq_iff_dvd' (Nat.le_of_lt hts)).mp hmod
    have hle : units.length ≤ s - t := Nat.le_of_dvd (by omega) hdvd
    omega
  · intro t j hj htm
    have hq : units.length * (t / units.length) + t % units.length = t :=
      Nat.div_add_mod t units.length
    have hr : t % units.length < units.length := Nat.mod_lt t hm
    by_cases hc : t % units.length ≤ j
    · refine ⟨units.length * (t / units.length) + j,
        ⟨(units.length * (t / units.length) + j) % units.length, interval⟩,
        by omega, by omega, ?_, ?_⟩
      · exact hget _ (by omega)
      · show (units.length * (t / units.length) + j) % units.length = j
        rw [Nat.mul_add_mod]
        exact Nat.mod_eq_of_lt hj
    · have hq2 : units.length * (t / units.length + 1)
          = units.length * (t / units.length) + units.length := Nat.mul_succ _ _
      refine ⟨units.length * (t / units.length + 1) + j,
        ⟨(units.length * (t / units.length + 1) + j) % units.length, interval⟩,
        by omega, by omega, ?_, ?_⟩
      · exact hget _ (by omega)
      · show (units.length * (t / units.length + 1) + j) % units.length = j
        rw [Nat.mul_add_mod]
        exact Nat.mod_eq_of_lt hj

/-- Witness for C5 at a concrete three-unit worker: the first six turn
    events visit units 0,1,2,0,1,2 with the interval slept each time. -/
theorem generate_round_robin_witness :
    (workerRun WrapStrategy.Append 250 (fun _ => okFlags)
      ⟨[initUnit "a" "oa" ["x\n"], initUnit "b" "ob" ["y\n"],
        initUnit "c" "oc" ["z\n"]], 0⟩ 6).2.get? 4 = some ⟨1, 250⟩ :=
  (generate_round_robin WrapStrategy.Append 250 (fun _ => okFlags)
    [initUnit "a" "oa" ["x\n"], initUnit "b" "ob" ["y\n"],
     initUnit "c" "oc" ["z\n"]] 6 (by decide)).2.1 4 (by decide)

/-- The files whose discovery index (starting the count at c) is
    congruent to j mod n: the intended content of partition j. -/
def idxSelect {α : Type} (n j : Nat) : List α → Nat → List α
  | [], _ => []
  | f :: rest, c => (if c % n = j then [f] else []) ++ idxSelect n j rest (c + 1)

/-- Number of indices i < m with i mod n = j. -/
def cntMod (n j : Nat) : Nat → Nat
  | 0 => 0
  | m + 1 => cntMod n j m + (if m % n = j then 1 else 0)

/-- The discovery loop of run: push each discovered file onto partition
    counter mod n and increment the counter. -/
def assignLoop {α : Type} (n : Nat) :
    List (List α) → Nat → List α → List (List α)
  | ws, _, [] => ws
  | ws, c, f :: rest =>
    assignLoop n (ws.set (c % n) (ws.getD (c % n) [] ++ [f])) (c + 1) rest

/-- The partition construction of run: n empty partitions, then the
    discovery loop with the counter starting at 0. -/
def partitionFiles {α : Type} (files : List α) (n : Nat) : List (List α) :=
  assignLoop n (List.replicate n []) 0 files

theorem assignLoop_length {α : Type} (n : Nat) :
    ∀ (fs : List α) (ws : List (List α)) (c : Nat),
      (assignLoop n ws c fs).length = ws.length := by
  intro fs
  induction fs with
  | nil => intro ws c; rfl
  | cons f rest ih =>
    intro ws c
    show (assignLoop n (ws.set (c % n) (ws.getD (c % n) [] ++ [f]))
        (c + 1) rest).length = ws.length
    rw [ih, List.length_set]

theorem getD_set_self {α : Type} :
    ∀ (ws : List (List α)) (i : Nat) (v : List α), i < ws.length →
      (ws.set i v).getD i [] = v := by
  intro ws
  induction ws with
  | nil => intro i v h; exact absurd h (Nat.not_lt_zero i)
  | cons w rest ih =>
    intro i v h
    cases i with
    | zero => rfl
    | succ i => exact ih i v (by simpa using h)

theorem getD_set_ne {α : Type} :
    ∀ (ws : List (List α)) (i j : Nat) (v : List α), i ≠ j →
      (ws.set i v).getD j [] = ws.getD j [] := by
  intro ws
  induction ws with
  | nil => intro i j v h; cases i <;> rfl
  | cons w rest ih =>
    intro i j v h
    cases i with
    | zero =>
      cases j with
      | zero => exact absurd rfl h
      | succ j => rfl
    | succ i =>
      cases j with
      | zero => rfl
      | succ j => exact ih i j v (fun he => h (by rw [he]))

theorem assignLoop_getD {α : Type} (n : Nat) :
    ∀ (fs : List α) (ws : List (List α)) (c j : Nat),
      ws.length = n → j < n →
      (assignLoop n ws c fs).getD j [] = ws.getD j [] ++ idxSelect n j fs c := by
  intro fs
  induction fs with
  | nil => intro ws c j hw hj; simp [assignLoop, idxSelect]
  | cons f rest ih =>
    intro ws c j hw hj
    show (assignLoop n (ws.set (c % n) (ws.getD (c % n) [] ++ [f]))
        (c + 1) rest).getD j [] = ws.getD j [] ++ idxSelect n j (f :: rest) c
    rw [ih _ (c + 1) j (by rw [List.length_set]; exact hw) hj]
    by_cases hcj : c % n = j
    · rw [hcj, getD_set_self _ _ _ (by rw [hw]; exact hj), List.append_assoc]
      congr 1
      show [f] ++ idxSelect n j rest (c + 1) = idxSelect n j (f :: rest) c
      simp [idxSelect, hcj]
    · rw [getD_set_ne _ _ _ _ hcj]
      congr 1
      show idxSelect n j rest (c + 1) = idxSelect n j (f :: rest) c
      simp [idxSelect, hcj]

theorem idxSelect_length {α : Type} (n j : Nat) :
    ∀ (fs : List α) (c : Nat),
      (idxSelect n j fs c).length + cntMod n j c
        = cntMod n j (c + fs.length) := by
  intro fs
  induction fs with
  | nil => intro c; simp [idxSelect]
  | cons f rest ih =>
    intro c
    show ((if c % n = j then [f] else []) ++ idxSelect n j rest (c + 1)).length
        + cntMod n j c = cntMod n j (c + (rest.length + 1))
    have hthis := ih (c + 1)
    have hc : cntMod n j (c + 1)
        = cntMod n j c + (if c % n = j then 1 else 0) := rfl
    have harr : c + (rest.length + 1) = (c + 1) + rest.length := by omega
    rw [harr, ← hthis, hc, List.length_append]
    by_cases hcj : c % n = j <;> simp [hcj] <;> omega

theorem cntMod_closed (n j : Nat) (hn : 0 < n) (hj : j < n) :
    ∀ M, cntMod n j M = M / n + (if j < M % n then 1 else 0) := by
  intro M
  induction M with
  | zero => simp [cntMod, Nat.zero_div, Nat.zero_mod]
  | succ M ih =>
    have hq : n * (M / n) + M % n = M := Nat.div_add_mod M n
    have hr : M % n < n := Nat.mod_lt M hn
    show cntMod n j M + (if M % n = j then 1 else 0) = _
    by_cases hcase : M % n + 1 < n
    · have h1 : M + 1 = n * (M / n) + (M % n + 1) := by omega
      have hdiv : (M + 1) / n = M / n := by
        rw [h1, Nat.mul_add_div hn, Nat.div_eq_of_lt hcase]
        omega
      have hmod : (M + 1) % n = M % n + 1 := by
        rw [h1, Nat.mul_add_mod]
        exact Nat.mod_eq_of_lt hcase
      rw [ih, hdiv, hmod]
      split_ifs <;> omega
    · have h1 : M + 1 = n * (M / n + 1) := by rw [Nat.mul_succ]; omega
      have hdiv : (M + 1) / n = M / n + 1 := by
        rw [h1, Nat.mul_div_cancel_left _ hn]
      have hmod : (M + 1) % n = 0 := by
        rw [h1]
        exact Nat.mul_mod_right n _
      rw [ih, hdiv, hmod]
      split_ifs <;> omega

theorem getD_replicate_nil {α : Type} :
    ∀ (n j : Nat), (List.replicate n ([] : List α)).getD j [] = [] := by
  intro n
  induction n with
  | zero => intro j; cases j <;> rfl
  | succ n ih =>
    intro j
    cases j with
    | zero => rfl
    | succ j => exact ih j

theorem partitionFiles_getD {α : Type} (files : List α) (n j : Nat)
    (hn : 0 < n) (hj : j < n) :
    (partitionFiles files n).getD j [] = idxSelect n j files 0 := by
  unfold partitionFiles
  rw [assignLoop_getD n files (List.replicate n []) 0 j
    (List.length_replicate n []) hj, getD_replicate_nil]
  simp

theorem sumLen_set {α : Type} :
    ∀ (ws : List (List α)) (i : Nat) (f : α), i < ws.length →
      ((ws.set i (ws.getD i [] ++ [f])).map List.length).sum
        = ((ws.map List.length).sum) + 1 := by
  intro ws
  induction ws with
  | nil => intro i f h; exact absurd h (Nat.not_lt_zero i)
  | cons w rest ih =>
    intro i f h
    cases i with
    | zero =>
      show (((w ++ [f]) :: rest).map List.length).sum = _
      simp only [List.map_cons, List.sum_cons, List.length_append]
      simp
      omega
    | succ i =>
      show ((w :: rest.set i (rest.getD i [] ++ [f])).map List.length).sum = _
      simp only [List.map_cons, List.sum_cons]
      rw [ih i f (by simpa using h)]
      omega

theorem assignLoop_sum {α : Type} (n : Nat) (hn : 0 < n) :
    ∀ (fs : List α) (ws : List (List α)) (c : Nat), ws.length = n →
      ((assignLoop n ws c fs).map List.length).sum
        = (ws.map List.length).sum + fs.length := by
  intro fs
  induction fs with
  | nil => intro ws c hw; simp [assignLoop]
  | cons f rest ih =>
    intro ws c hw
    show ((assignLoop n (ws.set (c % n) (ws.getD (c % n) [] ++ [f]))
        (c + 1) rest).map List.length).sum = _
    rw [ih _ (c + 1) (by rw [List.length_set]; exact hw)]
    rw [sumLen_set ws (c % n) f (by rw [hw]; exact Nat.mod_lt c hn)]
    simp only [List.length_cons]
    omega

/-- C4: the discovery loop of run assigns every discovered file to
    exactly one partition (the partition list has length n and the
    partition sizes add up to the number of files), the file with
    discovery index i lands in partition i mod n (each partition j is
    exactly the sublist of files whose index is congruent to j), and
    any two partition sizes differ by at most 1. -/
theorem run_partitioning (α : Type) (files : List α) (n : Nat) (hn : 0 < n) :
    (partitionFiles files n).length = n
    ∧ ((partitionFiles files n).map List.length).sum = files.length
    ∧ (∀ j, j < n → (partitionFiles files n).getD j [] = idxSelect n j files 0)
    ∧ (∀ j k, j < n → k < n →
        ((partitionFiles files n).getD j []).length
          ≤ ((partitionFiles files n).getD k []).length + 1) := by
  refine ⟨?_, ?_, ?_, ?_⟩
  · unfold partitionFiles
    rw [assignLoop_length, List.length_replicate]
  · unfold partitionFiles
    rw [assignLoop_sum n hn files _ 0 (List.length_replicate n [])]
    have hz : (((List.replicate n ([] : List α)).map List.length)).sum = 0 := by
      simp
    omega
  · intro j hj
    exact partitionFiles_getD files n j hn hj
  · intro j k hj hk
    rw [partitionFiles_getD files n j hn hj, partitionFiles_getD files n k hn hk]
    have lenj : (idxSelect n j files 0).length = cntMod n j files.length := by
      have h := idxSelect_length n j files 0
      simpa [cntMod] using h
    have lenk : (idxSelect n k files 0).length = cntMod n k files.length := by
      have h := idxSelect_length n k files 0
      simpa [cntMod] using h
    rw [lenj, lenk, cntMod_closed n j hn hj, cntMod_closed n k hn hk]
    split_ifs <;> omega

/-- Witness for C4 at a concrete discovery list. -/
theorem run_partitioning_witness :
    (partitionFiles [10, 20, 30] 2).length = 2 :=
  (run_partitioning Nat [10, 20, 30] 2 (by decide)).1

/-- A file found by the directory walk of run, with its mirrored output
    path and its content, plus flags telling whether the create_dir_all
    call for the output parent and the file opens of GenInput::new
    succeed for it. -/
structure DiscoveredFile where
  path_in : String
  path_out : String
  content : FileContent
  dirOk : Bool
  openOk : Bool
deriving DecidableEq, Repr

/-- GenInput::new for a discovered file whose opens succeed: reader at
    offset 0 on the input content, write handle on the output path. -/
def mkGen (f : DiscoveredFile) : GenInput :=
  ⟨f.path_in, f.path_out, f.content, 0, f.path_out⟩

/-- The discovery loop of run: for each file create the output parent
    directory, construct the GenInput, and push it onto partition
    counter mod n.  The question-mark operators abort the whole
    construction with the first filesystem error. -/
def runBuild (n : Nat) : List (List GenInput) → Nat → List DiscoveredFile →
    Except IoErr (List (List GenInput))
  | ws, _, [] => Except.ok ws
  | ws, c, f :: rest =>
    if f.dirOk then
      if f.openOk then
        runBuild n (ws.set (c % n) (ws.getD (c % n) [] ++ [mkGen f])) (c + 1) rest
      else Except.error IoErr.ioError
    else Except.error IoErr.ioError

/-- run: build the n partitions from the discovered files, then spawn
    one worker per non-empty partition; the result lists are the unit
    lists handed to the spawned worker threads.  On a setup error the
    failure is returned instead and the spawn loop is never reached. -/
def run (files : List DiscoveredFile) (n : Nat) :
    Except IoErr (List (List GenInput)) :=
  match runBuild n (List.replicate n []) 0 files with
  | Except.error e => Except.error e
  | Except.ok ws => Except.ok (ws.filter (fun w => ! w.isEmpty))

theorem runBuild_error (n : Nat) :
    ∀ (fs : List DiscoveredFile) (ws : List (List GenInput)) (c : Nat),
      (∃ f, f ∈ fs ∧ (f.dirOk = false ∨ f.openOk = false)) →
      runBuild n ws c fs = Except.error IoErr.ioError := by
  intro fs
  induction fs with
  | nil =>
    intro ws c hex
    rcases hex with ⟨f, hf, _⟩
    exact absurd hf (List.not_mem_nil f)
  | cons g rest ih =>
    intro ws c hex
    cases hd : g.dirOk with
    | false => simp [runBuild, hd]
    | true =>
      cases ho : g.openOk with
      | false => simp [runBuild, hd, ho]
      | true =>
        have hrec : runBuild n ws c (g :: rest)
            = runBuild n (ws.set (c % n) (ws.getD (c % n) [] ++ [mkGen g]))
                (c + 1) rest := by
          simp [runBuild, hd, ho]
        rw [hrec]
        apply ih
        rcases hex with ⟨f, hf, hor⟩
        rcases List.mem_cons.mp hf with he | hm
        · subst he
          rcases hor with h1 | h1
          · rw [hd] at h1; exact absurd h1 (by simp)
          · rw [ho] at h1; exact absurd h1 (by simp)
        · exact ⟨f, hm, hor⟩

/-- C8: a setup error during partition construction — a failing output
    directory creation or a failing initial file open for any discovered
    file — makes run return the failure instead of a partition list, so
    the spawn loop is never reached and no worker is started. -/
theorem run_setup_error_aborts (files : List DiscoveredFile) (n : Nat)
    (h : ∃ f, f ∈ files ∧ (f.dirOk = false ∨ f.openOk = false)) :
    run files n = Except.error IoErr.ioError := by
  unfold run
  rw [runBuild_error n files (List.replicate n []) 0 h]

/-- Witness for C8: one discovered file whose directory creation fails
    aborts the run. -/
theorem run_setup_error_aborts_witness :
    run [⟨"a", "b", [], false, true⟩] 1 = Except.error IoErr.ioError :=
  run_setup_error_aborts [⟨"a", "b", [], false, true⟩] 1
    ⟨⟨"a", "b", [], false, true⟩, by simp, Or.inl rfl⟩
